import Mathlib

/-!
Verification of the entity-indexing core of the repository
(`src/tool__table_indexer.py`, class `TableIndexer`), as a shallow embedding.

Spark column values are nullable strings, modelled as `Option String`.
A dataframe is modelled as a `List` of rows; the normalized key expression
evaluated on a row yields an `Option String`.  Spark string functions
(`trim`, `upper`, `regexp_replace`) propagate null, hence the `Option.map`
in `normalizeValue`.  Uppercasing is modelled on ASCII characters, which is
the alphabet the repository's entity codes use.
-/

namespace SamsTools

/-- Spark `F.trim`: removes leading and trailing ASCII space characters. -/
def trimChars (cs : List Char) : List Char :=
  ((cs.dropWhile (· = ' ')).reverse.dropWhile (· = ' ')).reverse

/-- Spark `F.upper`, modelled character-wise on ASCII. -/
def upperChars (cs : List Char) : List Char := cs.map Char.toUpper

/-- Number of leading `'0'` characters. -/
def zeroRun : List Char → Nat
  | [] => 0
  | c :: rest => if c = '0' then zeroRun rest + 1 else 0

/-- Whether the character at position `n` (if any) is an ASCII digit. -/
def digitAt (cs : List Char) (n : Nat) : Bool :=
  match cs.drop n with
  | c :: _ => c.isDigit
  | [] => false

/-- Length matched by the regex `^0+(?=\d)` of `_normalize_entity_value`
(`0` when there is no match).  The greedy `0+` takes the longest run of
`j ≥ 1` leading zeros such that the character at position `j` is still a
digit (the lookahead); when the full zero run `z` is not followed by a
digit, the engine backtracks to `j = z - 1` (position `z - 1` holds a
`'0'`, itself a digit), possible only when `z ≥ 2`. -/
def matchLen (cs : List Char) : Nat :=
  if zeroRun cs = 0 then 0
  else if digitAt cs (zeroRun cs) then zeroRun cs
  else if 1 < zeroRun cs then zeroRun cs - 1
  else 0

/-- The replacement `F.regexp_replace(s, r"^0+(?=\d)", "")`: the matched
leading zeros are deleted. -/
def stripLeadingZeros (cs : List Char) : List Char := cs.drop (matchLen cs)

/-- `TableIndexer._normalize_entity_value` on a non-null value: cast to
string (identity on strings), trim whitespace, uppercase, strip leading
zeros per the regex `^0+(?=\d)`. -/
def normalizeStr (s : String) : String :=
  String.mk (stripLeadingZeros (upperChars (trimChars s.data)))

/-- The same column expression on a nullable value: every step of
`_normalize_entity_value` is null-propagating. -/
def normalizeValue (v : Option String) : Option String := v.map normalizeStr

/-- Spark `F.concat_ws`: joins the non-null arguments with the separator;
null arguments are skipped entirely; the result is never null. -/
def concatWs (sep : List Char) : List (List Char) → List Char
  | [] => []
  | [x] => x
  | x :: xs => x ++ sep ++ concatWs sep xs

/-- `TableIndexer._create_composite_key`: normalize each field
independently, then `F.concat_ws("|", ...)` in the declared order. -/
def create_composite_key (fields : List (Option String)) : String :=
  String.mk (concatWs ['|'] ((fields.filterMap normalizeValue).map String.data))

/-- One Python `str.replace(pat, rep)` step with explicit fuel (the fuel is
the length of the scanned list; every step consumes at least one character,
so `s.length` fuel is enough): replaces every non-overlapping occurrence of
`pat`, scanning left to right. -/
def replaceAllAux (pat rep : List Char) : Nat → List Char → List Char
  | _, [] => []
  | 0, s => s
  | fuel + 1, c :: rest =>
    if pat ≠ [] ∧ (c :: rest).take pat.length = pat then
      rep ++ replaceAllAux pat rep fuel ((c :: rest).drop pat.length)
    else
      c :: replaceAllAux pat rep fuel rest

/-- Python `str.replace(pat, rep)` (with non-empty `pat` at all call
sites): replaces every occurrence of `pat`, not only a leading one. -/
def replaceAll (pat rep s : List Char) : List Char :=
  replaceAllAux pat rep s.length s

/-- Boolean `startswith`. -/
def startsWithChars (s p : List Char) : Bool := decide (s.take p.length = p)

/-- `TableIndexer._create_index_column_name`: replace the occurrences of
`"FK__"` and then of `"PK__"` by `"index__"`; if the result does not start
with `"index__"`, prepend `"index__"` to the original column name. -/
def create_index_column_name (source_entity_col : String) : String :=
  let step1 := replaceAll "FK__".data "index__".data source_entity_col.data
  let step2 := replaceAll "PK__".data "index__".data step1
  if startsWithChars step2 "index__".data then String.mk step2
  else String.mk ("index__".data ++ source_entity_col.data)

/-- The distinct candidate keys of
`indexed_df.select(normalized_expr).distinct().filter(isNotNull ∧ ≠ "")`,
in first-occurrence order.  `vals` is the normalized key expression
evaluated on every row. -/
def input_entities (vals : List (Option String)) : List String :=
  vals.dedup.filterMap (fun v =>
    match v with
    | none => none
    | some s => if s = "" then none else some s)

/-- The select over `existing_mapping_df` rows `(entity value, index)`: the
key column is normalized again by `_normalize_entity_value`, the index
column is cast to long (the identity in this model, where the persisted
index column is already integral), and rows with a null or empty
normalized key are filtered out. -/
def normalizeExisting (rows : List (Option String × Int)) : List (String × Int) :=
  rows.filterMap (fun r =>
    match normalizeValue r.1 with
    | none => none
    | some s => if s = "" then none else some (s, r.2))

/-- Worker for `.dropDuplicates([normalized_entity])`: keeps the first row
for each key, skipping rows whose key was already `seen`. -/
def dropDupAux (seen : List String) : List (String × Int) → List (String × Int)
  | [] => []
  | p :: rest =>
    if p.1 ∈ seen then dropDupAux seen rest
    else p :: dropDupAux (p.1 :: seen) rest

/-- `.dropDuplicates([normalized_entity])`: keeps the first row per key. -/
def dropDuplicatesByKey (l : List (String × Int)) : List (String × Int) :=
  dropDupAux [] l

/-- The `existing_mapping` dataframe as `TableIndexer.index` computes it
from the supplied `existing_mapping_df` (`[]` when none is supplied):
normalize, filter, deduplicate by key. -/
def processedExisting (existing : Option (List (Option String × Int))) :
    List (String × Int) :=
  match existing with
  | none => []
  | some rows => dropDuplicatesByKey (normalizeExisting rows)

/-- `existing_mapping.agg(F.max(index_col)).first()`: `none` on an empty
input, else the maximum index. -/
def maxIndexOpt : List (String × Int) → Option Int
  | [] => none
  | p :: rest =>
    match maxIndexOpt rest with
    | none => some p.2
    | some m => some (max p.2 m)

/-- The `max_index` value of `TableIndexer.index`: the aggregate above
with a null result coalesced to `0`. -/
def maxIndex (l : List (String × Int)) : Int := (maxIndexOpt l).getD 0

/-- Lexicographic comparison of character lists by code point, the order
Spark uses on string columns (binary comparison; identical to code-point
order on the ASCII keys in play). -/
def leChars : List Char → List Char → Bool
  | [], _ => true
  | _ :: _, [] => false
  | a :: as, b :: bs => if a = b then leChars as bs else decide (a < b)

/-- Lexicographic `≤` on the normalized key strings. -/
def keyLe (a b : String) : Bool := leChars a.data b.data

instance : DecidableRel (fun a b : String => keyLe a b = true) :=
  fun _ _ => inferInstance

/-- Ascending sort of the candidate keys: `Window.orderBy(normalized_entity)`
orders by the normalized key string. -/
def sortKeys (ks : List String) : List String :=
  ks.insertionSort (fun a b => keyLe a b = true)

/-- `F.row_number().over(...) + max`: consecutive indices from `start`
down the ordered key list. -/
def assignFrom : Int → List String → List (String × Int)
  | _, [] => []
  | n, k :: ks => (k, n) :: assignFrom (n + 1) ks

/-- The mapping computed by `TableIndexer.index` before the final
`orderBy(index_col)`.  `vals` is the normalized key expression evaluated
on every row of `indexed_df`.  The `filter` models the `left_anti` join of
the candidates against the existing keys, and the `isEmpty` test models
`new_entities.limit(1).count() == 0`. -/
def indexMappingCore (vals : List (Option String))
    (existing : Option (List (Option String × Int)))
    (append_new_entities : Bool) : List (String × Int) :=
  match existing with
  | none => assignFrom 1 (sortKeys (input_entities vals))
  | some rows =>
    let existing_mapping := dropDuplicatesByKey (normalizeExisting rows)
    if append_new_entities then
      let new_entities := (input_entities vals).filter
        (fun k => decide (k ∉ existing_mapping.map Prod.fst))
      if new_entities.isEmpty then existing_mapping
      else
        existing_mapping ++
          assignFrom (maxIndex existing_mapping + 1) (sortKeys new_entities)
    else existing_mapping

/-- The final `mapping.orderBy(index_col)`. -/
def sortByIndex (m : List (String × Int)) : List (String × Int) :=
  m.insertionSort (fun p q => p.2 ≤ q.2)

/-- Result of one `TableIndexer.index` call: the `"mapping"` dataframe and
the `"focal_indexed"` dataframe (each row paired with its joined index). -/
structure IndexResult (ρ : Type) where
  mapping : List (String × Int)
  focal_indexed : List (ρ × Option Int)
  deriving DecidableEq

/-- The value the left join on `normalized_expr == key` attaches to a row:
a null key matches nothing, and the mapping's keys are unique (proved
below), so the join is a lookup of the first matching pair. -/
def joinIndex (m : List (String × Int)) (v : Option String) : Option Int :=
  match v with
  | none => none
  | some k => (m.find? (fun p => decide (p.1 = k))).map Prod.snd

/-- `TableIndexer.index` over an abstract row type `ρ`: `keyExpr` is the
normalized key expression (single-column `normalizeValue` or composite
`create_composite_key` over the row's fields).  Returns the mapping
ordered by index together with the joined dataset. -/
def TableIndexer.index {ρ : Type} (rows : List ρ) (keyExpr : ρ → Option String)
    (existing : Option (List (Option String × Int)))
    (append_new_entities : Bool) : IndexResult ρ :=
  let mapping := indexMappingCore (rows.map keyExpr) existing append_new_entities
  { mapping := sortByIndex mapping
    focal_indexed := rows.map (fun r => (r, joinIndex mapping (keyExpr r))) }

/-- Column list of `indexed_df` after the call: the previous column of the
standardized index name is dropped (`indexed_df.drop(index_col_name)`,
which removes every column of that name) and the join appends the renamed
index column. -/
def indexedColumns (cols : List String) (source_col : String) : List String :=
  (cols.filter (fun c => decide (c ≠ create_index_column_name source_col))) ++
    [create_index_column_name source_col]

/-- Modelled from the spec: `MappingStore.mergeInsertOnly` (spec section
4.3) is not part of `src/`; per the spec it is a single atomic conditional
merge that inserts exactly the proposed pairs whose key is not already
present in the table and never updates an existing row.  One atomic merge
step on the persisted table: -/
def mergeInsertOnly (table newPairs : List (String × Int)) :
    List (String × Int) :=
  table ++ newPairs.filter (fun p => decide (p.1 ∉ table.map Prod.fst))

example : input_entities [some "B", none, some "", some "B", some "A"] = ["B", "A"] := by decide
example : processedExisting (some [(some "a", 5), (some " A", 1), (none, 9)]) = [("A", 5)] := by decide
example : maxIndex [("A", 3), ("B", 7)] = 7 := by decide
example : maxIndex [] = 0 := by decide
example : sortKeys ["B", "A", "AB"] = ["A", "AB", "B"] := by decide
example :
    indexMappingCore [some "B", some "A"] none true = [("A", 1), ("B", 2)] := by decide
example :
    indexMappingCore [some "B", some "A", some "C"] (some [(some "B", 4)]) true =
      [("B", 4), ("A", 5), ("C", 6)] := by decide
example :
    indexMappingCore [some "B", some "A"] (some [(some "B", 4)]) false = [("B", 4)] := by decide
example :
    (TableIndexer.index [some "B", none] normalizeValue none true).focal_indexed =
      [(some "B", some 1), (none, none)] := by decide

example : normalizeStr " acme " = "ACME" := by decide
example : normalizeStr "001" = "1" := by decide
example : normalizeStr "0" = "0" := by decide
example : normalizeStr "000" = "0" := by decide
example : normalizeStr "00A" = "0A" := by decide
example : create_composite_key [some "SAP", some "001"] = "SAP|1" := by decide
example : create_composite_key [none, some "x"] = "X" := by decide
example : create_index_column_name "FK__cust" = "index__cust" := by decide
example : create_index_column_name "cust" = "index__cust" := by decide
example : create_index_column_name "FK__a_FK__b" = "index__a_index__b" := by decide

theorem leChars_total : ∀ as bs : List Char, leChars as bs = true ∨ leChars bs as = true
  | [], _ => Or.inl rfl
  | _ :: _, [] => Or.inr rfl
  | a :: as, b :: bs => by
    by_cases h : a = b
    · subst h
      simpa [leChars] using leChars_total as bs
    · have h' : b ≠ a := fun e => h e.symm
      rcases lt_or_gt_of_ne h with hlt | hgt
      · exact Or.inl (by simp [leChars, h, hlt])
      · exact Or.inr (by simp [leChars, h', hgt])

theorem leChars_trans : ∀ as bs cs : List Char,
    leChars as bs = true → leChars bs cs = true → leChars as cs = true
  | [], _, _, _, _ => rfl
  | _ :: _, [], _, h₁, _ => by simp [leChars] at h₁
  | _ :: _, _ :: _, [], _, h₂ => by simp [leChars] at h₂
  | a :: as, b :: bs, c :: cs, h₁, h₂ => by
    by_cases hab : a = b
    · subst hab
      simp only [leChars, if_pos rfl] at h₁
      by_cases hac : a = c
      · subst hac
        simp only [leChars, if_pos rfl] at h₂ ⊢
        exact leChars_trans as bs cs h₁ h₂
      · simpa only [leChars, if_neg hac] using (by simpa only [leChars, if_neg hac] using h₂)
    · simp only [leChars, if_neg hab] at h₁
      have hab' : a < b := of_decide_eq_true h₁
      by_cases hbc : b = c
      · subst hbc
        simp only [leChars, if_neg hab]
        exact h₁
      · simp only [leChars, if_neg hbc] at h₂
        have hbc' : b < c := of_decide_eq_true h₂
        have hac : a < c := lt_trans hab' hbc'
        have hne : a ≠ c := ne_of_lt hac
        simp [leChars, hne, hac]

theorem leChars_antisymm : ∀ as bs : List Char,
    leChars as bs = true → leChars bs as = true → as = bs
  | [], [], _, _ => rfl
  | [], _ :: _, _, h₂ => by simp [leChars] at h₂
  | _ :: _, [], h₁, _ => by simp [leChars] at h₁
  | a :: as, b :: bs, h₁, h₂ => by
    by_cases hab : a = b
    · subst hab
      simp only [leChars, if_pos rfl] at h₁ h₂
      rw [leChars_antisymm as bs h₁ h₂]
    · have hba : b ≠ a := fun e => hab e.symm
      simp only [leChars, if_neg hab] at h₁
      simp only [leChars, if_neg hba] at h₂
      exact absurd (lt_trans (of_decide_eq_true h₁) (of_decide_eq_true h₂)) (lt_irrefl a)

instance : IsTotal String (fun a b => keyLe a b = true) :=
  ⟨fun a b => leChars_total a.data b.data⟩

instance : IsTrans String (fun a b => keyLe a b = true) :=
  ⟨fun a b c => leChars_trans a.data b.data c.data⟩

instance : IsAntisymm String (fun a b => keyLe a b = true) :=
  ⟨fun a b h₁ h₂ => by
    cases a; cases b
    exact congrArg String.mk (leChars_antisymm _ _ h₁ h₂)⟩

theorem sortKeys_sorted (ks : List String) :
    List.Sorted (fun a b => keyLe a b = true) (sortKeys ks) :=
  List.sorted_insertionSort _ ks

theorem sortKeys_perm (ks : List String) : List.Perm (sortKeys ks) ks :=
  List.perm_insertionSort _ ks

theorem sortKeys_ext {l₁ l₂ : List String} (d₁ : l₁.Nodup) (d₂ : l₂.Nodup)
    (h : ∀ k, k ∈ l₁ ↔ k ∈ l₂) : sortKeys l₁ = sortKeys l₂ :=
  List.eq_of_perm_of_sorted
    ((sortKeys_perm l₁).trans
      (((List.perm_ext_iff_of_nodup d₁ d₂).2 h).trans (sortKeys_perm l₂).symm))
    (sortKeys_sorted l₁) (sortKeys_sorted l₂)

theorem mem_input_entities {vals : List (Option String)} {k : String} :
    k ∈ input_entities vals ↔ some k ∈ vals ∧ k ≠ "" := by
  simp only [input_entities, List.mem_filterMap, List.mem_dedup]
  constructor
  · rintro ⟨v, hv, he⟩
    match v with
    | none => simp at he
    | some s =>
      by_cases hs : s = ""
      · simp [hs] at he
      · simp only [if_neg hs, Option.some.injEq] at he
        exact ⟨he ▸ hv, he ▸ hs⟩
  · rintro ⟨hv, hk⟩
    exact ⟨some k, hv, by simp [hk]⟩

theorem input_entities_nodup (vals : List (Option String)) :
    (input_entities vals).Nodup := by
  refine List.Nodup.filterMap ?_ (List.nodup_dedup vals)
  intro a a' b hb hb'
  match a, a' with
  | none, _ => simp at hb
  | some s, none => simp at hb'
  | some s, some s' =>
    by_cases hs : s = ""
    · simp [hs] at hb
    · by_cases hs' : s' = ""
      · simp [hs'] at hb'
      · simp only [if_neg hs, Option.mem_def, Option.some.injEq] at hb
        simp only [if_neg hs', Option.mem_def, Option.some.injEq] at hb'
        rw [hb, hb']

theorem assignFrom_map_fst : ∀ (n : Int) (ks : List String),
    (assignFrom n ks).map Prod.fst = ks
  | _, [] => rfl
  | n, k :: ks => by
    simp only [assignFrom, List.map_cons, assignFrom_map_fst (n + 1) ks]

theorem assignFrom_length : ∀ (n : Int) (ks : List String),
    (assignFrom n ks).length = ks.length
  | _, [] => rfl
  | n, k :: ks => by
    simp [assignFrom, assignFrom_length (n + 1) ks]

theorem assignFrom_map_snd : ∀ (n : Int) (ks : List String),
    (assignFrom n ks).map Prod.snd =
      (List.range ks.length).map (fun i : Nat => n + (i : Int))
  | _, [] => rfl
  | n, k :: ks => by
    rw [assignFrom, List.map_cons, assignFrom_map_snd (n + 1) ks, List.length_cons,
      List.range_succ_eq_map, List.map_cons, List.map_map]
    congr 1
    · simp
    · refine List.map_congr_left (fun i _ => ?_)
      simp only [Function.comp_apply]
      push_cast
      ring

theorem assignFrom_snd_ge : ∀ {n : Int} {ks : List String} {p : String × Int},
    p ∈ assignFrom n ks → n ≤ p.2
  | _, [], _, h => by simp [assignFrom] at h
  | n, k :: ks, p, h => by
    rcases List.mem_cons.1 h with rfl | h
    · exact le_refl _
    · exact le_trans (by omega) (assignFrom_snd_ge h)

theorem assignFrom_snd_nodup (n : Int) (ks : List String) :
    ((assignFrom n ks).map Prod.snd).Nodup := by
  rw [assignFrom_map_snd]
  have hinj : Function.Injective fun i : Nat => n + (i : Int) := by
    intro i j h
    simp only at h
    omega
  exact List.Nodup.map hinj (List.nodup_range _)

theorem mem_dropDupAux {p : String × Int} :
    ∀ {l : List (String × Int)} {seen : List String},
      p ∈ dropDupAux seen l ↔
        p.1 ∉ seen ∧ l.find? (fun q => decide (q.1 = p.1)) = some p
  | [], seen => by simp [dropDupAux]
  | q :: l, seen => by
    by_cases hq : q.1 ∈ seen
    · rw [dropDupAux, if_pos hq, mem_dropDupAux (l := l)]
      by_cases hpq : q.1 = p.1
      · constructor
        · rintro ⟨hns, _⟩
          exact absurd (hpq ▸ hq) hns
        · rintro ⟨hns, _⟩
          exact absurd (hpq ▸ hq) hns
      · rw [List.find?_cons_of_neg _ (by simpa using hpq)]
    · rw [dropDupAux, if_neg hq]
      by_cases hpq : q.1 = p.1
      · rw [List.mem_cons, List.find?_cons_of_pos _ (by simpa using hpq),
          mem_dropDupAux (l := l)]
        constructor
        · rintro (rfl | ⟨hns, _⟩)
          · exact ⟨hq, rfl⟩
          · exact absurd (List.mem_cons_self _ _) (hpq ▸ hns)
        · rintro ⟨hns, he⟩
          exact Or.inl (Option.some.inj he).symm
      · rw [List.mem_cons, List.find?_cons_of_neg _ (by simpa using hpq),
          mem_dropDupAux (l := l)]
        constructor
        · rintro (rfl | ⟨hns, hf⟩)
          · exact absurd rfl hpq
          · exact ⟨fun hm => hns (List.mem_cons_of_mem _ hm), hf⟩
        · rintro ⟨hns, hf⟩
          refine Or.inr ⟨fun hm => ?_, hf⟩
          rcases List.mem_cons.1 hm with he | hm'
          · exact hpq he.symm
          · exact hns hm'

theorem dropDupAux_keys_nodup :
    ∀ (l : List (String × Int)) (seen : List String),
      ((dropDupAux seen l).map Prod.fst).Nodup ∧
        ∀ k ∈ (dropDupAux seen l).map Prod.fst, k ∉ seen
  | [], seen => by simp [dropDupAux]
  | q :: l, seen => by
    by_cases hq : q.1 ∈ seen
    · rw [dropDupAux, if_pos hq]
      exact dropDupAux_keys_nodup l seen
    · rw [dropDupAux, if_neg hq]
      obtain ⟨ih₁, ih₂⟩ := dropDupAux_keys_nodup l (q.1 :: seen)
      simp only [List.map_cons, List.nodup_cons]
      refine ⟨⟨fun hmem => ?_, ih₁⟩, ?_⟩
      · exact ih₂ _ hmem (List.mem_cons_self _ _)
      · intro k hk
        rcases List.mem_cons.1 hk with rfl | hk'
        · exact hq
        · exact fun hseen => ih₂ k hk' (List.mem_cons_of_mem _ hseen)

theorem mem_dropDuplicatesByKey {l : List (String × Int)} {p : String × Int} :
    p ∈ dropDuplicatesByKey l ↔ l.find? (fun q => decide (q.1 = p.1)) = some p := by
  rw [dropDuplicatesByKey, mem_dropDupAux]
  simp

theorem dropDuplicatesByKey_keys_nodup (l : List (String × Int)) :
    ((dropDuplicatesByKey l).map Prod.fst).Nodup :=
  (dropDupAux_keys_nodup l []).1

theorem dropDuplicatesByKey_subset {l : List (String × Int)} {p : String × Int}
    (h : p ∈ dropDuplicatesByKey l) : p ∈ l :=
  List.mem_of_find?_eq_some (mem_dropDuplicatesByKey.1 h)

theorem maxIndexOpt_ne_none : ∀ {l : List (String × Int)}, l ≠ [] →
    maxIndexOpt l = some (maxIndex l)
  | [], h => absurd rfl h
  | q :: rest, _ => by
    rw [maxIndex, maxIndexOpt]
    match maxIndexOpt rest with
    | none => rfl
    | some m => rfl

theorem le_maxIndex : ∀ {l : List (String × Int)} {p : String × Int},
    p ∈ l → p.2 ≤ maxIndex l
  | [], p, h => by simp at h
  | q :: rest, p, h => by
    rcases List.mem_cons.1 h with rfl | h'
    · rw [maxIndex, maxIndexOpt]
      match maxIndexOpt rest with
      | none => exact le_refl _
      | some m => exact le_max_left _ _
    · have hne : rest ≠ [] := List.ne_nil_of_mem h'
      have ih := le_maxIndex h'
      rw [maxIndex, maxIndexOpt, maxIndexOpt_ne_none hne]
      exact le_trans ih (le_max_right _ _)

theorem maxIndex_nonneg {l : List (String × Int)} (h : ∀ p ∈ l, 0 < p.2) :
    0 ≤ maxIndex l := by
  match l with
  | [] => exact le_refl 0
  | q :: rest =>
    exact le_trans (h q (List.mem_cons_self _ _)).le
      (le_maxIndex (List.mem_cons_self _ _))

theorem indexMappingCore_none (vals : List (Option String)) (app : Bool) :
    indexMappingCore vals none app = assignFrom 1 (sortKeys (input_entities vals)) := rfl

theorem indexMappingCore_some_true (vals : List (Option String))
    (ex : List (Option String × Int)) :
    indexMappingCore vals (some ex) true =
      processedExisting (some ex) ++
        assignFrom (maxIndex (processedExisting (some ex)) + 1)
          (sortKeys ((input_entities vals).filter
            (fun k => decide (k ∉ (processedExisting (some ex)).map Prod.fst)))) := by
  simp only [indexMappingCore, processedExisting]
  split
  · split
    · next h =>
      rw [List.isEmpty_iff.1 h]
      simp [sortKeys, List.insertionSort, assignFrom]
    · rfl
  · next h => exact absurd trivial h

theorem indexMappingCore_some_false (vals : List (Option String))
    (ex : List (Option String × Int)) :
    indexMappingCore vals (some ex) false = processedExisting (some ex) := rfl

theorem index_mapping_perm {ρ : Type} (rows : List ρ) (keyExpr : ρ → Option String)
    (existing : Option (List (Option String × Int))) (app : Bool) :
    List.Perm (TableIndexer.index rows keyExpr existing app).mapping
      (indexMappingCore (rows.map keyExpr) existing app) :=
  List.perm_insertionSort _ _

theorem newEntities_nodup (vals : List (Option String))
    (ex : List (Option String × Int)) :
    ((input_entities vals).filter
      (fun k => decide (k ∉ (processedExisting (some ex)).map Prod.fst))).Nodup :=
  (input_entities_nodup vals).filter _

theorem mem_newEntities {vals : List (Option String)}
    {ex : List (Option String × Int)} {k : String} :
    k ∈ (input_entities vals).filter
        (fun k => decide (k ∉ (processedExisting (some ex)).map Prod.fst)) ↔
      (some k ∈ vals ∧ k ≠ "") ∧ k ∉ (processedExisting (some ex)).map Prod.fst := by
  rw [List.mem_filter, mem_input_entities]
  simp

/-- The first claim-free building block for the allocation claims: what
`TableIndexer.index` appends after the existing pairs, fully described. -/
theorem appended_block_spec (start : Int) (ks : List String) (hks : ks.Nodup) :
    ((assignFrom start (sortKeys ks)).map Prod.fst).Nodup ∧
      (∀ k, k ∈ (assignFrom start (sortKeys ks)).map Prod.fst ↔ k ∈ ks) ∧
      List.Pairwise (fun a b => keyLe a b = true)
        ((assignFrom start (sortKeys ks)).map Prod.fst) ∧
      (assignFrom start (sortKeys ks)).map Prod.snd =
        (List.range ks.length).map (fun i : Nat => start + (i : Int)) := by
  rw [assignFrom_map_fst, assignFrom_map_snd]
  refine ⟨(sortKeys_perm ks).symm.nodup hks,
    fun k => (sortKeys_perm ks).mem_iff,
    sortKeys_sorted ks, ?_⟩
  rw [(sortKeys_perm ks).length_eq]

/-- Claim C2: with no existing mapping, the distinct non-null non-empty
normalized candidate keys get indices `1..N` in ascending lexicographic
key order; with an existing mapping and `append_new_entities = True`,
exactly the candidate keys not in the existing mapping get consecutive
indices from `max_index + 1` in ascending key order, appended after the
unchanged existing pairs; the returned `"mapping"` dataframe is that
computed mapping reordered by index. -/
theorem index_allocation_spec {ρ : Type} (rows : List ρ)
    (keyExpr : ρ → Option String) (ex : List (Option String × Int)) :
    (let m₀ := indexMappingCore (rows.map keyExpr) none true
     (∀ k, k ∈ m₀.map Prod.fst ↔ (∃ r ∈ rows, keyExpr r = some k) ∧ k ≠ "") ∧
       (m₀.map Prod.fst).Nodup ∧
       List.Pairwise (fun a b => keyLe a b = true) (m₀.map Prod.fst) ∧
       m₀.map Prod.snd = (List.range m₀.length).map (fun i : Nat => 1 + (i : Int))) ∧
    (let em := processedExisting (some ex)
     let m := indexMappingCore (rows.map keyExpr) (some ex) true
     let d := m.drop em.length
     m.take em.length = em ∧
       (∀ k, k ∈ d.map Prod.fst ↔
         ((∃ r ∈ rows, keyExpr r = some k) ∧ k ≠ "") ∧ k ∉ em.map Prod.fst) ∧
       (d.map Prod.fst).Nodup ∧
       List.Pairwise (fun a b => keyLe a b = true) (d.map Prod.fst) ∧
       d.map Prod.snd = (List.range d.length).map (fun i : Nat => maxIndex em + 1 + (i : Int))) ∧
    ∀ (existing : Option (List (Option String × Int))) (app : Bool),
      List.Perm (TableIndexer.index rows keyExpr existing app).mapping
        (indexMappingCore (rows.map keyExpr) existing app) := by
  refine ⟨?_, ?_, fun existing app => index_mapping_perm rows keyExpr existing app⟩
  · dsimp only
    rw [indexMappingCore_none]
    obtain ⟨h₁, h₂, h₃, h₄⟩ :=
      appended_block_spec 1 (input_entities (rows.map keyExpr))
        (input_entities_nodup _)
    refine ⟨fun k => ?_, h₁, h₃, ?_⟩
    · rw [h₂ k, mem_input_entities, List.mem_map]
    · rw [h₄, assignFrom_length, (sortKeys_perm _).length_eq]
  · dsimp only
    rw [indexMappingCore_some_true, List.take_left, List.drop_left]
    obtain ⟨h₁, h₂, h₃, h₄⟩ :=
      appended_block_spec (maxIndex (processedExisting (some ex)) + 1)
        ((input_entities (rows.map keyExpr)).filter
          (fun k => decide (k ∉ (processedExisting (some ex)).map Prod.fst)))
        (newEntities_nodup _ _)
    refine ⟨rfl, fun k => ?_, h₁, h₃, ?_⟩
    · rw [h₂ k, mem_newEntities, List.mem_map]
    · rw [h₄, assignFrom_length, (sortKeys_perm _).length_eq]

theorem indexMappingCore_fst_nodup (vals : List (Option String))
    (existing : Option (List (Option String × Int))) (app : Bool) :
    ((indexMappingCore vals existing app).map Prod.fst).Nodup := by
  match existing, app with
  | none, app =>
    rw [indexMappingCore_none, assignFrom_map_fst]
    exact (sortKeys_perm _).symm.nodup (input_entities_nodup _)
  | some ex, false =>
    rw [indexMappingCore_some_false]
    exact dropDuplicatesByKey_keys_nodup _
  | some ex, true =>
    rw [indexMappingCore_some_true, List.map_append, List.nodup_append]
    obtain ⟨h₁, h₂, _, _⟩ :=
      appended_block_spec (maxIndex (processedExisting (some ex)) + 1)
        ((input_entities vals).filter
          (fun k => decide (k ∉ (processedExisting (some ex)).map Prod.fst)))
        (newEntities_nodup _ _)
    refine ⟨dropDuplicatesByKey_keys_nodup _, h₁, fun k hk hk' => ?_⟩
    exact (mem_newEntities.1 ((h₂ k).1 hk')).2 hk

theorem indexMappingCore_snd_nodup (vals : List (Option String))
    (existing : Option (List (Option String × Int))) (app : Bool)
    (hsnd : ((processedExisting existing).map Prod.snd).Nodup) :
    ((indexMappingCore vals existing app).map Prod.snd).Nodup := by
  match existing, app with
  | none, app =>
    rw [indexMappingCore_none]
    exact assignFrom_snd_nodup _ _
  | some ex, false =>
    rw [indexMappingCore_some_false]
    exact hsnd
  | some ex, true =>
    rw [indexMappingCore_some_true, List.map_append, List.nodup_append]
    refine ⟨hsnd, assignFrom_snd_nodup _ _, fun i hi hi' => ?_⟩
    obtain ⟨p, hp, hpi⟩ := List.mem_map.1 hi
    obtain ⟨q, hq, hqi⟩ := List.mem_map.1 hi'
    have h₁ : p.2 ≤ maxIndex (processedExisting (some ex)) := le_maxIndex hp
    have h₂ : maxIndex (processedExisting (some ex)) + 1 ≤ q.2 := assignFrom_snd_ge hq
    omega

theorem indexMappingCore_pos (vals : List (Option String))
    (existing : Option (List (Option String × Int))) (app : Bool)
    (hpos : ∀ p ∈ processedExisting existing, 0 < p.2) :
    ∀ p ∈ indexMappingCore vals existing app, 0 < p.2 := by
  match existing, app with
  | none, app =>
    rw [indexMappingCore_none]
    intro p hp
    have := assignFrom_snd_ge hp
    omega
  | some ex, false =>
    rw [indexMappingCore_some_false]
    exact hpos
  | some ex, true =>
    rw [indexMappingCore_some_true]
    intro p hp
    rcases List.mem_append.1 hp with hp' | hp'
    · exact hpos p hp'
    · have h₁ := assignFrom_snd_ge hp'
      have h₂ : (0 : Int) ≤ maxIndex (processedExisting (some ex)) :=
        maxIndex_nonneg hpos
      omega

/-- Claim C1 (amended): assuming the normalized, key-deduplicated existing
mapping assigns each index to at most one key and all its indices are
positive, the mapping returned by `TableIndexer.index` has pairwise
distinct keys, pairwise distinct indices, and only positive indices.  (Key
uniqueness of the deduplicated existing mapping holds by construction; the
positivity hypothesis is necessary, see the counterexample.) -/
theorem index_mapping_bijective {ρ : Type} (rows : List ρ)
    (keyExpr : ρ → Option String)
    (existing : Option (List (Option String × Int))) (app : Bool)
    (hsnd : ((processedExisting existing).map Prod.snd).Nodup)
    (hpos : ∀ p ∈ processedExisting existing, 0 < p.2) :
    let m := (TableIndexer.index rows keyExpr existing app).mapping
    (m.map Prod.fst).Nodup ∧ (m.map Prod.snd).Nodup ∧ ∀ p ∈ m, 0 < p.2 := by
  dsimp only
  have hperm := index_mapping_perm rows keyExpr existing app
  refine ⟨((hperm.map Prod.fst).symm).nodup
      (indexMappingCore_fst_nodup (rows.map keyExpr) existing app),
    ((hperm.map Prod.snd).symm).nodup
      (indexMappingCore_snd_nodup (rows.map keyExpr) existing app hsnd),
    fun p hp => indexMappingCore_pos (rows.map keyExpr) existing app hpos p
      (hperm.mem_iff.1 hp)⟩

/-- Claim C1 as stated is refuted: the existing-mapping row `("A", 0)`
is a bijective mapping after normalization and deduplication, yet the
returned mapping keeps index `0`, which is not a positive integer. -/
theorem index_mapping_positive_cex :
    (((processedExisting (some [(some "A", (0 : Int))])).map Prod.fst).Nodup ∧
      ((processedExisting (some [(some "A", (0 : Int))])).map Prod.snd).Nodup) ∧
    ∃ p ∈ (TableIndexer.index ([] : List (Option String)) normalizeValue
        (some [(some "A", (0 : Int))]) true).mapping, ¬ 0 < p.2 := by
  decide

theorem index_mapping_bijective_witness :
    ((((processedExisting (some [(some "a", (1 : Int)), (some "B", 7)])).map
        Prod.snd).Nodup) ∧
      ∀ p ∈ processedExisting (some [(some "a", (1 : Int)), (some "B", 7)]),
        0 < p.2) ∧
    (let m := (TableIndexer.index [some "b", some "a", none] normalizeValue
        (some [(some "a", (1 : Int)), (some "B", 7)]) true).mapping
     (m.map Prod.fst).Nodup ∧ (m.map Prod.snd).Nodup ∧ ∀ p ∈ m, 0 < p.2) :=
  ⟨⟨by decide, by decide⟩,
    index_mapping_bijective [some "b", some "a", none] normalizeValue
      (some [(some "a", (1 : Int)), (some "B", 7)]) true (by decide) (by decide)⟩

theorem indexMappingCore_ext (vals₁ vals₂ : List (Option String))
    (existing : Option (List (Option String × Int))) (app : Bool)
    (h : ∀ v, v ∈ vals₁ ↔ v ∈ vals₂) :
    indexMappingCore vals₁ existing app = indexMappingCore vals₂ existing app := by
  have hc : ∀ k, k ∈ input_entities vals₁ ↔ k ∈ input_entities vals₂ := by
    intro k
    rw [mem_input_entities, mem_input_entities, h (some k)]
  match existing, app with
  | none, app =>
    rw [indexMappingCore_none, indexMappingCore_none,
      sortKeys_ext (input_entities_nodup _) (input_entities_nodup _) hc]
  | some ex, false =>
    rw [indexMappingCore_some_false, indexMappingCore_some_false]
  | some ex, true =>
    rw [indexMappingCore_some_true, indexMappingCore_some_true]
    have hs :
        sortKeys ((input_entities vals₁).filter
          (fun k => decide (k ∉ (processedExisting (some ex)).map Prod.fst))) =
        sortKeys ((input_entities vals₂).filter
          (fun k => decide (k ∉ (processedExisting (some ex)).map Prod.fst))) := by
      refine sortKeys_ext (newEntities_nodup _ _) (newEntities_nodup _ _) (fun k => ?_)
      rw [mem_newEntities, mem_newEntities, h (some k)]
    rw [hs]

/-- Claim C3: the mapping computed by `TableIndexer.index` depends only on
the membership of the per-row normalized key values (the deduplicated
candidate set) and on the processed existing mapping: the embedding is a
pure function, so re-running on the same inputs gives the identical
mapping definitionally, and reordering or duplicating the dataset's rows —
which preserves the set of key-expression values — never changes the
returned mapping. -/
theorem index_mapping_order_independent {ρ : Type} (rows₁ rows₂ : List ρ)
    (keyExpr : ρ → Option String)
    (existing : Option (List (Option String × Int))) (app : Bool)
    (h₁ : ∀ v ∈ rows₁.map keyExpr, v ∈ rows₂.map keyExpr)
    (h₂ : ∀ v ∈ rows₂.map keyExpr, v ∈ rows₁.map keyExpr) :
    (TableIndexer.index rows₁ keyExpr existing app).mapping =
      (TableIndexer.index rows₂ keyExpr existing app).mapping := by
  show sortByIndex _ = sortByIndex _
  rw [indexMappingCore_ext (rows₁.map keyExpr) (rows₂.map keyExpr) existing app
    (fun v => ⟨fun hv => h₁ v hv, fun hv => h₂ v hv⟩)]

theorem index_mapping_order_independent_witness :
    ((∀ v ∈ ([some "b", some "a"] : List (Option String)).map normalizeValue,
        v ∈ ([some "a", some " B ", some "b"] : List (Option String)).map normalizeValue) ∧
      (∀ v ∈ ([some "a", some " B ", some "b"] : List (Option String)).map normalizeValue,
        v ∈ ([some "b", some "a"] : List (Option String)).map normalizeValue)) ∧
    (TableIndexer.index [some "b", some "a"] normalizeValue
        (some [(some "a", (1 : Int))]) true).mapping =
      (TableIndexer.index [some "a", some " B ", some "b"] normalizeValue
        (some [(some "a", (1 : Int))]) true).mapping :=
  ⟨⟨by decide, by decide⟩,
    index_mapping_order_independent [some "b", some "a"]
      [some "a", some " B ", some "b"] normalizeValue
      (some [(some "a", (1 : Int))]) true (by decide) (by decide)⟩

/-- Claim C10: when the supplied existing mapping has no usable row (every
row is dropped for a null or empty normalized key, or the mapping is
empty), the maximum existing index is the null-coalesced `0` and the call
behaves exactly as if no existing mapping had been supplied: new entities
get indices from `1` in ascending normalized-key order, on the mapping and
on the joined dataset alike. -/
theorem index_empty_existing {ρ : Type} (rows : List ρ)
    (keyExpr : ρ → Option String) (ex : List (Option String × Int))
    (h : processedExisting (some ex) = []) :
    TableIndexer.index rows keyExpr (some ex) true =
      TableIndexer.index rows keyExpr none true := by
  have hcore : indexMappingCore (rows.map keyExpr) (some ex) true =
      indexMappingCore (rows.map keyExpr) none true := by
    rw [indexMappingCore_some_true, h, indexMappingCore_none, List.nil_append,
      List.filter_eq_self.2 (fun a _ => by simp)]
    simp [maxIndex, maxIndexOpt]
  simp only [TableIndexer.index, hcore]

theorem index_empty_existing_witness :
    processedExisting (some [(none, (3 : Int)), (some "  ", 7)]) = [] ∧
    TableIndexer.index [some "x"] normalizeValue
        (some [(none, (3 : Int)), (some "  ", 7)]) true =
      TableIndexer.index [some "x"] normalizeValue none true :=
  ⟨by decide,
    index_empty_existing [some "x"] normalizeValue [(none, (3 : Int)), (some "  ", 7)]
      (by decide)⟩

/-- Claim C7: with an existing mapping and `append_new_entities = False`,
no new index is allocated: the returned mapping consists exactly of the
normalized, deduplicated existing pairs (reordered by index), candidate
keys absent from the existing mapping do not appear in it, and a row whose
normalized key is null or absent from the mapping joins to a null index. -/
theorem index_no_append_spec {ρ : Type} (rows : List ρ)
    (keyExpr : ρ → Option String) (ex : List (Option String × Int)) :
    (∀ p, p ∈ (TableIndexer.index rows keyExpr (some ex) false).mapping ↔
        p ∈ processedExisting (some ex)) ∧
    (∀ k, k ∉ (processedExisting (some ex)).map Prod.fst →
        k ∉ ((TableIndexer.index rows keyExpr (some ex) false).mapping).map Prod.fst) ∧
    ((TableIndexer.index rows keyExpr (some ex) false).focal_indexed =
      rows.map (fun r => (r, joinIndex (processedExisting (some ex)) (keyExpr r)))) ∧
    (∀ k : String, k ∉ (processedExisting (some ex)).map Prod.fst →
        joinIndex (processedExisting (some ex)) (some k) = none) ∧
    joinIndex (processedExisting (some ex)) none = none := by
  have hperm := index_mapping_perm rows keyExpr (some ex) false
  rw [indexMappingCore_some_false] at hperm
  refine ⟨fun p => hperm.mem_iff, fun k hk hk' => ?_, rfl, fun k hk => ?_, rfl⟩
  · exact hk ((hperm.map Prod.fst).mem_iff.1 hk')
  · rw [joinIndex]
    rw [List.find?_eq_none.2 (fun q hq hdec => ?_)]
    · rfl
    · exact hk (List.mem_map.2 ⟨q, hq, of_decide_eq_true hdec⟩)

theorem index_no_append_witness :
    ("NOVA" ∉ (processedExisting (some [(some "ACME", (1 : Int))])).map Prod.fst) ∧
    joinIndex (processedExisting (some [(some "ACME", (1 : Int))])) (some "NOVA") = none :=
  ⟨by decide,
    (index_no_append_spec [some "Acme", some "Nova"] normalizeValue
      [(some "ACME", (1 : Int))]).2.2.2.1 "NOVA" (by decide)⟩

/-- Claim C8 as stated is refuted: for the existing mapping rows
`("A", 5), ("A", 1)` — both normalizing to key `"A"` — deduplication keeps
the first row `("A", 5)`, not the pair with the lowest index `("A", 1)`. -/
theorem dedup_lowest_cex :
    ("A", (5 : Int)) ∈ processedExisting (some [(some "A", 5), (some "A", 1)]) ∧
    ("A", (1 : Int)) ∉ processedExisting (some [(some "A", 5), (some "A", 1)]) := by
  decide

/-- Claim C8 (amended): when several supplied rows normalize to the same
key, loading deduplicates deterministically by keeping, for each key, the
first row in the dataframe's row order (not necessarily the lowest index);
no error is raised — the dedup is total — and the kept pairs are exactly
the first match per key among the normalized rows. -/
theorem dedup_first_wins (ex : List (Option String × Int)) :
    ((processedExisting (some ex)).map Prod.fst).Nodup ∧
    ∀ p, p ∈ processedExisting (some ex) ↔
      (normalizeExisting ex).find? (fun q => decide (q.1 = p.1)) = some p :=
  ⟨dropDuplicatesByKey_keys_nodup _, fun _ => mem_dropDuplicatesByKey⟩

/-- Claim C4 (spec-modelled): the store's `mergeInsertOnly` is a single
atomic conditional insert, so two concurrent calls serialize into one of
the two orders; this theorem covers both orders at once since `i` and `j`
range over all indices.  After two racing merges for the fresh key `"X"`
against an initially empty table, the table holds exactly one row for
`"X"` — the first committer's pair — and the loser's row is silently
dropped. -/
theorem mergeInsertOnly_race (i j : Int) :
    mergeInsertOnly (mergeInsertOnly [] [("X", i)]) [("X", j)] = [("X", i)] ∧
    ((mergeInsertOnly (mergeInsertOnly [] [("X", i)]) [("X", j)]).filter
      (fun p => decide (p.1 = "X"))).length = 1 := by
  constructor
  · simp [mergeInsertOnly]
  · simp [mergeInsertOnly]

theorem digitAt_succ (c : Char) (cs : List Char) (n : Nat) :
    digitAt (c :: cs) (n + 1) = digitAt cs n := rfl

theorem strip_nozero {cs : List Char} (h : zeroRun cs = 0) :
    stripLeadingZeros cs = cs := by
  rw [stripLeadingZeros, matchLen, if_pos h, List.drop_zero]

theorem strip_digit {cs : List Char} (h : digitAt cs (zeroRun cs) = true) :
    stripLeadingZeros cs = cs.drop (zeroRun cs) := by
  by_cases hz : zeroRun cs = 0
  · rw [stripLeadingZeros, matchLen, if_pos hz, hz]
  · rw [stripLeadingZeros, matchLen, if_neg hz, if_pos h]

theorem strip_backtrack : ∀ cs : List Char, 0 < zeroRun cs →
    digitAt cs (zeroRun cs) = false →
    stripLeadingZeros cs = '0' :: cs.drop (zeroRun cs)
  | [], h, _ => by simp [zeroRun] at h
  | c :: rest, h, hd => by
    by_cases hc : c = '0'
    · subst hc
      have hz : zeroRun ('0' :: rest) = zeroRun rest + 1 := by simp [zeroRun]
      have hd2 : digitAt ('0' :: rest) (zeroRun rest + 1) = false := by
        rw [← hz]; exact hd
      have hd' : digitAt rest (zeroRun rest) = false := by
        rw [digitAt_succ] at hd2; exact hd2
      have hm : matchLen ('0' :: rest) = zeroRun rest := by
        rw [matchLen, hz, if_neg (Nat.succ_ne_zero _), ← hz,
          if_neg (by simp [hd]), hz]
        split <;> omega
      rw [stripLeadingZeros, hz, List.drop_succ_cons, hm]
      by_cases hzr : zeroRun rest = 0
      · rw [hzr]
        simp
      · have h1 : 0 < zeroRun rest := Nat.pos_of_ne_zero hzr
        have ih := strip_backtrack rest h1 hd'
        have hmr : matchLen rest = zeroRun rest - 1 := by
          rw [matchLen, if_neg hzr, if_neg (by simp [hd'])]
          split <;> omega
        rw [stripLeadingZeros, hmr] at ih
        obtain ⟨m, hm'⟩ : ∃ m, zeroRun rest = m + 1 := ⟨zeroRun rest - 1, by omega⟩
        rw [hm', List.drop_succ_cons]
        rw [hm'] at ih
        simpa using ih
    · simp only [zeroRun, if_neg hc] at h
      exact absurd h (lt_irrefl 0)

/-- Claim C5 as stated is refuted: the claimed rule "strip any run of
leading zeros, preserving a lone 0" would send `"00A"` to `"A"`, but the
regex `^0+(?=\d)` only strips zeros followed by a digit, so the code
normalizes `"00A"` to `"0A"`. -/
theorem normalize_strip_cex :
    normalizeStr "00A" = "0A" ∧ normalizeStr "00A" ≠ "A" := by decide

/-- Claim C5 (amended): `_normalize_entity_value` casts to string, trims
surrounding whitespace, uppercases, and strips the run of leading zeros
exactly when the first character after the run is a digit; otherwise (in
particular on an all-zero value) a single leading zero is kept, so `"0"`
is preserved.  Consequently `"Acme"`, `" ACME "`, `"acme"` normalize to
the same key, and `"001"` and `"1"` normalize to the same key. -/
theorem normalize_entity_value_spec :
    (normalizeStr "Acme" = "ACME" ∧ normalizeStr " ACME " = "ACME" ∧
      normalizeStr "acme" = "ACME" ∧ normalizeStr "001" = "1" ∧
      normalizeStr "1" = "1" ∧ normalizeStr "0" = "0" ∧ normalizeStr "000" = "0") ∧
    ∀ cs : List Char,
      (zeroRun cs = 0 → stripLeadingZeros cs = cs) ∧
      (digitAt cs (zeroRun cs) = true → stripLeadingZeros cs = cs.drop (zeroRun cs)) ∧
      (0 < zeroRun cs → digitAt cs (zeroRun cs) = false →
        stripLeadingZeros cs = '0' :: cs.drop (zeroRun cs)) :=
  ⟨by decide, fun cs =>
    ⟨fun h => strip_nozero h, fun h => strip_digit h,
      fun h hd => strip_backtrack cs h hd⟩⟩

theorem normalize_entity_value_spec_witness :
    (0 < zeroRun "000".data ∧ digitAt "000".data (zeroRun "000".data) = false) ∧
    stripLeadingZeros "000".data = '0' :: "000".data.drop (zeroRun "000".data) :=
  ⟨⟨by decide, by decide⟩,
    ((normalize_entity_value_spec.2 "000".data).2.2) (by decide) (by decide)⟩

theorem append_sep_inj : ∀ (a b u v : List Char), '|' ∉ a → '|' ∉ b →
    a ++ '|' :: u = b ++ '|' :: v → a = b ∧ u = v
  | [], [], u, v, _, _, h => ⟨rfl, by simpa using h⟩
  | [], c :: b, u, v, _, hb, h => by
    simp only [List.nil_append, List.cons_append, List.cons.injEq] at h
    exact absurd (by rw [← h.1]; exact List.mem_cons_self _ _ : '|' ∈ c :: b) hb
  | c :: a, [], u, v, ha, _, h => by
    simp only [List.cons_append, List.nil_append, List.cons.injEq] at h
    exact absurd (by rw [h.1]; exact List.mem_cons_self _ _ : '|' ∈ c :: a) ha
  | c :: a, d :: b, u, v, ha, hb, h => by
    simp only [List.cons_append, List.cons.injEq] at h
    obtain ⟨rfl, h2⟩ := h
    obtain ⟨h3, h4⟩ := append_sep_inj a b u v
      (fun hm => ha (List.mem_cons_of_mem _ hm))
      (fun hm => hb (List.mem_cons_of_mem _ hm)) h2
    exact ⟨by rw [h3], h4⟩

theorem concatWs_inj : ∀ (xs ys : List (List Char)), xs.length = ys.length →
    (∀ x ∈ xs, '|' ∉ x) → (∀ y ∈ ys, '|' ∉ y) →
    concatWs ['|'] xs = concatWs ['|'] ys → xs = ys
  | [], [], _, _, _, _ => rfl
  | [], _ :: _, hlen, _, _, _ => by simp at hlen
  | _ :: _, [], hlen, _, _, _ => by simp at hlen
  | [x], [y], _, _, _, h => by
    simp only [concatWs] at h
    rw [h]
  | [_], _ :: _ :: _, hlen, _, _, _ => by simp at hlen
  | _ :: _ :: _, [_], hlen, _, _, _ => by simp at hlen
  | x :: x' :: xs, y :: y' :: ys, hlen, hx, hy, h => by
    simp only [concatWs, List.append_assoc, List.singleton_append] at h
    obtain ⟨h1, h2⟩ := append_sep_inj _ _ _ _
      (hx x (List.mem_cons_self _ _)) (hy y (List.mem_cons_self _ _)) h
    have h3 := concatWs_inj (x' :: xs) (y' :: ys) (by simpa using hlen)
      (fun z hz => hx z (List.mem_cons_of_mem _ hz))
      (fun z hz => hy z (List.mem_cons_of_mem _ hz)) h2
    rw [h1, h3]

theorem map_eq_filterMap_of_ne_none : ∀ (fs : List (Option String)),
    (∀ f ∈ fs, f ≠ none) →
    fs.map normalizeValue = (fs.filterMap normalizeValue).map some
  | [], _ => rfl
  | f :: fs, h => by
    match f, h f (List.mem_cons_self _ _) with
    | some s, _ =>
      simp only [List.map_cons, List.filterMap_cons, normalizeValue, Option.map_some']
      exact congrArg _
        (map_eq_filterMap_of_ne_none fs (fun g hg => h g (List.mem_cons_of_mem _ hg)))

theorem string_data_injective : Function.Injective String.data := by
  intro a b h
  cases a
  cases b
  exact congrArg String.mk h

/-- Claim C6 as stated is refuted: normalization does not remove the
delimiter `"|"` from field values, so the two distinct raw tuples
`("A|B", "C")` and `("A", "B|C")` — whose fields do not normalize equal
position-wise — produce the same composite key `"A|B|C"`. -/
theorem composite_key_cex :
    create_composite_key [some "A|B", some "C"] =
      create_composite_key [some "A", some "B|C"] ∧
    normalizeValue (some "A|B") ≠ normalizeValue (some "A") ∧
    '|' ∈ (normalizeStr "A|B").data := by decide

/-- Claim C6 (amended): `_create_composite_key` normalizes each field
independently and joins the non-null normalized fields with the fixed
delimiter `"|"` in the declared hierarchy order.  Position-wise equal
normalized fields always yield equal composite keys; conversely, equal
composite keys force position-wise equal normalized fields provided no
field is null and no normalized field value contains the delimiter — a
guarantee normalization itself does not enforce (see the counterexample). -/
theorem composite_key_spec :
    (∀ fs gs : List (Option String),
      fs.map normalizeValue = gs.map normalizeValue →
      create_composite_key fs = create_composite_key gs) ∧
    (∀ fs gs : List (Option String), fs.length = gs.length →
      (∀ f ∈ fs, f ≠ none) → (∀ g ∈ gs, g ≠ none) →
      (∀ s ∈ fs.filterMap normalizeValue, '|' ∉ s.data) →
      (∀ s ∈ gs.filterMap normalizeValue, '|' ∉ s.data) →
      create_composite_key fs = create_composite_key gs →
      fs.map normalizeValue = gs.map normalizeValue) := by
  constructor
  · intro fs gs h
    rw [create_composite_key, create_composite_key]
    have h2 : List.filterMap id (fs.map normalizeValue) =
        List.filterMap id (gs.map normalizeValue) := by rw [h]
    rw [List.filterMap_map, List.filterMap_map] at h2
    simp only [Function.id_comp] at h2
    rw [h2]
  · intro fs gs hlen hf hg hdf hdg h
    have lf : fs.length = (fs.filterMap normalizeValue).length := by
      have := congrArg List.length (map_eq_filterMap_of_ne_none fs hf)
      simpa using this
    have lg : gs.length = (gs.filterMap normalizeValue).length := by
      have := congrArg List.length (map_eq_filterMap_of_ne_none gs hg)
      simpa using this
    rw [create_composite_key, create_composite_key] at h
    injection h with h
    have hdata : (fs.filterMap normalizeValue).map String.data =
        (gs.filterMap normalizeValue).map String.data := by
      refine concatWs_inj _ _ (by simp [← lf, ← lg, hlen]) ?_ ?_ h
      · intro x hx
        obtain ⟨s, hs, rfl⟩ := List.mem_map.1 hx
        exact hdf s hs
      · intro y hy
        obtain ⟨s, hs, rfl⟩ := List.mem_map.1 hy
        exact hdg s hs
    have hfm : fs.filterMap normalizeValue = gs.filterMap normalizeValue :=
      List.map_injective_iff.2 string_data_injective hdata
    rw [map_eq_filterMap_of_ne_none fs hf, map_eq_filterMap_of_ne_none gs hg, hfm]

theorem composite_key_spec_witness :
    (create_composite_key [some " a", some "01"] =
      create_composite_key [some "A", some "1"]) ∧
    ([some " a", some "01"] : List (Option String)).map normalizeValue =
      ([some "A", some "1"] : List (Option String)).map normalizeValue :=
  ⟨by decide,
    composite_key_spec.2 [some " a", some "01"] [some "A", some "1"]
      (by decide) (by decide) (by decide) (by decide) (by decide) (by decide)⟩

/-- Claim C9 as stated is refuted: the code runs a global `str.replace`,
not a prefix strip — for the column name `"FK__a_FK__b"` it produces
`"index__a_index__b"`, while stripping just the recognized prefix would
give `"index__a_FK__b"`. -/
theorem index_column_name_cex :
    create_index_column_name "FK__a_FK__b" = "index__a_index__b" ∧
    create_index_column_name "FK__a_FK__b" ≠ "index__a_FK__b" := by decide

/-- Claim C9 (amended): the appended index column's name is a
deterministic function of the source column name: every occurrence of
`"FK__"`, then of `"PK__"`, is replaced by `"index__"`, and if the result
does not begin with `"index__"` the marker is prepended to the original
name — in particular a recognized leading prefix becomes `"index__"`, an
unprefixed name gets the marker prepended, and the result always begins
with `"index__"`.  Re-running the indexing for the same source column
drops the previously appended column of that name before the join, so the
dataset carries exactly one such column, idempotently. -/
theorem index_column_name_spec (source : String) (cols : List String) :
    (create_index_column_name source).data.take 7 = "index__".data ∧
    (indexedColumns cols source).count (create_index_column_name source) = 1 ∧
    indexedColumns (indexedColumns cols source) source = indexedColumns cols source ∧
    create_index_column_name "FK__customer_name" = "index__customer_name" ∧
    create_index_column_name "PK__customer" = "index__customer" ∧
    create_index_column_name "customer_name" = "index__customer_name" := by
  have h7 : ("index__".data).length = 7 := by decide
  refine ⟨?_, ?_, ?_, by decide, by decide, by decide⟩
  · simp only [create_index_column_name]
    split
    · next h =>
      have h' := of_decide_eq_true h
      rw [← h7]
      exact h'
    · rw [← h7]
      exact List.take_left _ _
  · rw [indexedColumns, List.count_append]
    have hz : (cols.filter
        (fun c => decide (c ≠ create_index_column_name source))).count
        (create_index_column_name source) = 0 := by
      rw [List.count_eq_zero]
      intro hmem
      have := (List.mem_filter.1 hmem).2
      simp at this
    rw [hz]
    simp
  · rw [indexedColumns, indexedColumns, List.filter_append]
    have h1 : (cols.filter (fun c => decide (c ≠ create_index_column_name source))).filter
        (fun c => decide (c ≠ create_index_column_name source)) =
        cols.filter (fun c => decide (c ≠ create_index_column_name source)) := by
      rw [List.filter_eq_self]
      intro a ha
      exact (List.mem_filter.1 ha).2
    have h2 : ([create_index_column_name source].filter
        (fun c => decide (c ≠ create_index_column_name source))) = [] := by
      simp
    rw [h1, h2, List.append_nil]

end SamsTools
